import Mathlib

/-!
Verification of the Chinese-name sorting program in src/src/main.rs.

Strings are modelled as lists of Unicode scalar values (List Char).
Rust's str::len counts UTF-8 bytes; this is modelled by utf8Len below.
Rust's String::cmp is byte-wise lexicographic over UTF-8, and UTF-8
encoding preserves code-point order, so it is modelled by the
code-point-wise lexicographic comparison lexCmp.
The word dictionary (a HashMap from String to String) is only ever
consulted at single-character keys (c1.to_string() in compare_chars),
so it is modelled as a function from Char to Option (List Char).
The compound-surname set is modelled as a list of strings with
membership for HashSet::contains.
-/

/-- Byte length of a string under UTF-8: the meaning of str::len in Rust. -/
def utf8Len (s : List Char) : Nat := (s.map Char.utf8Size).sum

/-- Lexicographic comparison of two strings, modelling Rust String::cmp
(byte-wise over UTF-8, which coincides with code-point order). -/
def lexCmp : List Char → List Char → Ordering
  | [], [] => Ordering.eq
  | [], _ :: _ => Ordering.lt
  | _ :: _, [] => Ordering.gt
  | a :: as, b :: bs =>
    match compare a.toNat b.toNat with
    | Ordering.eq => lexCmp as bs
    | o => o

/-- The sentinel used when a character has no entry in the dictionary:
let default_code = "66666".to_string() in compare_chars (main.rs line 81). -/
def defaultCode : List Char := ['6', '6', '6', '6', '6']

/-- dict.get(&c_str).unwrap_or(&default_code) (main.rs lines 84-85):
the ordering code used for a character, with the sentinel fallback. -/
def lookupCode (dict : Char → Option (List Char)) (c : Char) : List Char :=
  (dict c).getD defaultCode

/-- Comparison of two codes (main.rs lines 88-97): by length first
(code1.len().cmp(&code2.len())), then lexicographically (code1.cmp(code2)). -/
def codeCmp (k1 k2 : List Char) : Ordering :=
  match compare (utf8Len k1) (utf8Len k2) with
  | Ordering.eq => lexCmp k1 k2
  | o => o

/-- One iteration of the loop in compare_chars: compare the codes of the
characters at one position. -/
def comparePos (dict : Char → Option (List Char)) (c1 c2 : Char) : Ordering :=
  codeCmp (lookupCode dict c1) (lookupCode dict c2)

/-- The loop of compare_chars over a.chars().zip(b.chars()), returning at
the first position whose comparison is not Equal; when the zip is
exhausted, a.len().cmp(&b.len()) (main.rs line 100) compares the byte
lengths of the two full strings, carried here as fa and fb. -/
def compareCharsLoop (dict : Char → Option (List Char)) (fa fb : List Char) :
    List Char → List Char → Ordering
  | c1 :: as, c2 :: bs =>
    match comparePos dict c1 c2 with
    | Ordering.eq => compareCharsLoop dict fa fb as bs
    | o => o
  | _, _ => compare (utf8Len fa) (utf8Len fb)

/-- compare_chars (main.rs lines 75-101). -/
def compareChars (dict : Char → Option (List Char)) (a b : List Char) : Ordering :=
  compareCharsLoop dict a b a b

/-- split_name (main.rs lines 59-73). Returns none exactly where the Rust
code panics: chars.next().unwrap() on a name with zero characters. -/
def splitName (s : List (List Char)) : List Char → Option (List Char × List Char)
  | [] => none
  | [c] => some ([c], [])
  | c1 :: c2 :: rest =>
    if [c1, c2] ∈ s then some ([c1, c2], rest)
    else some ([c1], c2 :: rest)

/-- A name as the spec's data model has it: a non-empty sequence of
characters. load_names filters out empty lines, so the comparator passed
to the sort only ever sees non-empty names. -/
abbrev PName : Type := {l : List Char // l ≠ []}

/-- split_name restricted to non-empty names, where it cannot panic;
the same case analysis as splitName, total. -/
def splitNameN (s : List (List Char)) (n : PName) : List Char × List Char :=
  match n with
  | ⟨[], h⟩ => absurd rfl h
  | ⟨[c], _⟩ => ([c], [])
  | ⟨c1 :: c2 :: rest, _⟩ =>
    if [c1, c2] ∈ s then ([c1, c2], rest)
    else ([c1], c2 :: rest)

/-- compare_names (main.rs lines 103-120): split both names, compare the
surnames with compare_chars, and on a tie compare the given names. -/
def compareNamesN (s : List (List Char)) (dict : Char → Option (List Char))
    (a b : PName) : Ordering :=
  match compareChars dict (splitNameN s a).1 (splitNameN s b).1 with
  | Ordering.eq => compareChars dict (splitNameN s a).2 (splitNameN s b).2
  | o => o

/-- The before-or-equal relation induced by compare_names, the ordering
key handed to the stable sort. -/
def nameLe (s : List (List Char)) (dict : Char → Option (List Char))
    (a b : PName) : Bool :=
  compareNamesN s dict a b ≠ Ordering.gt

/-- The sort driver (main.rs lines 21-24): reverse the loaded name list,
then stably sort it with compare_names as the ordering (Rust's sort_by is
a stable merge sort). -/
def sortNames (s : List (List Char)) (dict : Char → Option (List Char))
    (names : List PName) : List PName :=
  names.reverse.mergeSort (nameLe s dict)

/-- A dictionary with no entries: every character falls back to the
default code, so every position ties and only the length fallback acts. -/
def dict0 : Char → Option (List Char) := fun _ => none

/-- The code table of the end-to-end example in the spec. -/
def dict8 : Char → Option (List Char) := fun c =>
  if c = '欧' then some ['1', '0']
  else if c = '阳' then some ['2', '0']
  else if c = '锋' then some ['5']
  else none

/-- The compound-surname set of the end-to-end example in the spec. -/
def set8 : List (List Char) := [['欧', '阳']]

/-- A table giving character a the code "5" and character b the code "12",
the length-before-lexicographic example of the spec. -/
def dict51 : Char → Option (List Char) := fun c =>
  if c = 'a' then some ['5']
  else if c = 'b' then some ['1', '2']
  else none

/-- The name 欧阳锋 of the end-to-end example. -/
def oyf : PName := ⟨['欧', '阳', '锋'], by decide⟩

/-- The single-character name 锋 of the end-to-end example. -/
def feng : PName := ⟨['锋'], by decide⟩

/-- The one-character name a, used for witnesses. -/
def pnameA : PName := ⟨['a'], by decide⟩

/-- The two-character name 锋a, used for witnesses. -/
def pnameFA : PName := ⟨['锋', 'a'], by decide⟩

/-- The two-character name 锋b, used for witnesses. -/
def pnameFB : PName := ⟨['锋', 'b'], by decide⟩

/-- Swapping the arguments of Nat comparison swaps the ordering. -/
theorem natCompare_swap (m n : Nat) : compare n m = (compare m n).swap := by
  rcases Nat.lt_trichotomy m n with h | h | h
  · rw [Nat.compare_eq_lt.mpr h, Nat.compare_eq_gt.mpr h]; rfl
  · subst h; rw [Nat.compare_eq_eq.mpr rfl]; rfl
  · rw [Nat.compare_eq_gt.mpr h, Nat.compare_eq_lt.mpr h]; rfl

/-- Swapping the arguments of lexCmp swaps the ordering. -/
theorem lexCmp_swap (a : List Char) : ∀ b, lexCmp b a = (lexCmp a b).swap := by
  induction a with
  | nil => intro b; cases b <;> rfl
  | cons c as ih =>
    intro b
    cases b with
    | nil => rfl
    | cons d bs =>
      simp only [lexCmp]
      rw [natCompare_swap c.toNat d.toNat]
      cases compare c.toNat d.toNat with
      | eq => simpa using ih bs
      | lt => rfl
      | gt => rfl

/-- Swapping the arguments of codeCmp swaps the ordering. -/
theorem codeCmp_swap (k1 k2 : List Char) : codeCmp k2 k1 = (codeCmp k1 k2).swap := by
  unfold codeCmp
  rw [natCompare_swap (utf8Len k1) (utf8Len k2)]
  cases compare (utf8Len k1) (utf8Len k2) with
  | eq => simpa using lexCmp_swap k1 k2
  | lt => rfl
  | gt => rfl

/-- Swapping the characters at one position swaps the ordering. -/
theorem comparePos_swap (dict : Char → Option (List Char)) (c1 c2 : Char) :
    comparePos dict c2 c1 = (comparePos dict c1 c2).swap :=
  codeCmp_swap (lookupCode dict c1) (lookupCode dict c2)

/-- Swapping both the full strings and the remaining strings swaps the
result of the compare_chars loop. -/
theorem compareCharsLoop_swap (dict : Char → Option (List Char)) (fa fb : List Char) :
    ∀ a b, compareCharsLoop dict fb fa b a = (compareCharsLoop dict fa fb a b).swap := by
  intro a
  induction a with
  | nil =>
    intro b
    cases b with
    | nil => exact natCompare_swap _ _
    | cons d bs => exact natCompare_swap _ _
  | cons c as ih =>
    intro b
    cases b with
    | nil => exact natCompare_swap _ _
    | cons d bs =>
      simp only [compareCharsLoop]
      rw [comparePos_swap dict c d]
      cases comparePos dict c d with
      | eq => simpa using ih bs
      | lt => rfl
      | gt => rfl

/-- compare_chars is antisymmetric: swapping its arguments swaps the result. -/
theorem compareChars_swap (dict : Char → Option (List Char)) (a b : List Char) :
    compareChars dict b a = (compareChars dict a b).swap :=
  compareCharsLoop_swap dict a b a b

/-- compare_names is antisymmetric: swapping its arguments swaps the result. -/
theorem compareNamesN_swap (s : List (List Char)) (dict : Char → Option (List Char))
    (a b : PName) : compareNamesN s dict b a = (compareNamesN s dict a b).swap := by
  unfold compareNamesN
  rw [compareChars_swap dict (splitNameN s a).1 (splitNameN s b).1]
  cases compareChars dict (splitNameN s a).1 (splitNameN s b).1 with
  | eq => simpa using compareChars_swap dict (splitNameN s a).2 (splitNameN s b).2
  | lt => rfl
  | gt => rfl

/-- The before-or-equal relation induced by compare_names is total. -/
theorem nameLe_total (s : List (List Char)) (dict : Char → Option (List Char))
    (a b : PName) : nameLe s dict a b || nameLe s dict b a := by
  unfold nameLe
  rw [compareNamesN_swap s dict a b]
  cases compareNamesN s dict a b <;> decide

/-- On non-empty names the total splitNameN agrees with splitName. -/
theorem splitName_eq_splitNameN (s : List (List Char)) (n : PName) :
    splitName s n.val = some (splitNameN s n) := by
  obtain ⟨l, h⟩ := n
  match l with
  | [] => exact absurd rfl h
  | [c] => rfl
  | c1 :: c2 :: rest =>
    simp only [splitName, splitNameN]
    by_cases hm : [c1, c2] ∈ s <;> simp [hm]

/-- With the empty dictionary every position ties, so the compare_chars
loop always reaches the byte-length fallback. -/
theorem compareCharsLoop_dict0 (fa fb : List Char) :
    ∀ a b, compareCharsLoop dict0 fa fb a b = compare (utf8Len fa) (utf8Len fb) := by
  intro a
  induction a with
  | nil =>
    intro b
    cases b with
    | nil => rfl
    | cons d bs => rfl
  | cons c as ih =>
    intro b
    cases b with
    | nil => rfl
    | cons d bs =>
      simp only [compareCharsLoop]
      rw [show comparePos dict0 c d = Ordering.eq from rfl]
      exact ih bs

/-- With the empty dictionary compare_chars is the comparison of total
byte lengths. -/
theorem compareChars_dict0 (a b : List Char) :
    compareChars dict0 a b = compare (utf8Len a) (utf8Len b) :=
  compareCharsLoop_dict0 a b a b

/-- With the empty dictionary and an empty compound set, compare_names
reduces to comparing byte lengths of surnames, then of given names. -/
theorem compareNamesN_dict0 (a b : PName) :
    compareNamesN [] dict0 a b =
      match compare (utf8Len (splitNameN [] a).1) (utf8Len (splitNameN [] b).1) with
      | Ordering.eq => compare (utf8Len (splitNameN [] a).2) (utf8Len (splitNameN [] b).2)
      | o => o := by
  unfold compareNamesN
  rw [compareChars_dict0, compareChars_dict0]

/-- With the empty dictionary and compound set the comparator is a total
preorder; in particular it is transitive. -/
theorem nameLe_dict0_trans (x y z : PName) :
    nameLe [] dict0 x y → nameLe [] dict0 y z → nameLe [] dict0 x z := by
  have key : ∀ a b : PName, (nameLe [] dict0 a b = true) ↔
      (utf8Len (splitNameN [] a).1 < utf8Len (splitNameN [] b).1 ∨
       (utf8Len (splitNameN [] a).1 = utf8Len (splitNameN [] b).1 ∧
        utf8Len (splitNameN [] a).2 ≤ utf8Len (splitNameN [] b).2)) := by
    intro a b
    unfold nameLe
    rw [compareNamesN_dict0]
    rcases Nat.lt_trichotomy (utf8Len (splitNameN [] a).1) (utf8Len (splitNameN [] b).1)
      with h | h | h
    · rw [Nat.compare_eq_lt.mpr h]
      simp only [decide_eq_true_eq]
      constructor
      · intro _; exact Or.inl h
      · intro _; decide
    · rw [Nat.compare_eq_eq.mpr h]
      simp only [decide_eq_true_eq, ne_eq, Nat.compare_eq_gt]
      omega
    · rw [Nat.compare_eq_gt.mpr h]
      simp only [decide_eq_true_eq]
      constructor
      · intro hc; exact absurd rfl hc
      · intro hc; omega
  intro hxy hyz
  rw [key] at hxy hyz ⊢
  omega

/-- When every zipped position ties, the compare_chars loop reaches the
byte-length fallback on the full strings. -/
theorem compareCharsLoop_ties (dict : Char → Option (List Char)) (fa fb : List Char) :
    ∀ a b, (∀ p ∈ a.zip b, comparePos dict p.1 p.2 = Ordering.eq) →
      compareCharsLoop dict fa fb a b = compare (utf8Len fa) (utf8Len fb) := by
  intro a
  induction a with
  | nil =>
    intro b _
    cases b with
    | nil => rfl
    | cons d bs => rfl
  | cons c as ih =>
    intro b hb
    cases b with
    | nil => rfl
    | cons d bs =>
      have h0 : comparePos dict c d = Ordering.eq := hb (c, d) (by simp)
      simp only [compareCharsLoop, h0]
      exact ih bs (fun p hp => hb p (by rw [List.zip_cons_cons]; exact List.mem_cons_of_mem _ hp))

/-- Claim C1, amended: when the per-position code comparison ties at every
compared position, compare_chars falls back to comparing the two strings
by their total UTF-8 BYTE lengths, not their character counts: the result
is the Nat comparison of the byte lengths (lt when a has fewer bytes, gt
when more, eq when the byte lengths are equal). compare_chars of "a" and
"ab" under identical codes is still lt. -/
theorem compareChars_ties_length_fallback (dict : Char → Option (List Char))
    (a b : List Char)
    (h : ∀ p ∈ a.zip b, comparePos dict p.1 p.2 = Ordering.eq) :
    compareChars dict a b = compare (utf8Len a) (utf8Len b) :=
  compareCharsLoop_ties dict a b a b h

/-- Witness for claim C1: for "a" and "ab" under the empty dictionary all
positions tie and the fallback yields lt. -/
theorem compareChars_ties_length_fallback_witness :
    compareChars dict0 ['a'] ['a', 'b'] = Ordering.lt := by
  rw [compareChars_ties_length_fallback dict0 ['a'] ['a', 'b'] (by decide)]
  decide

/-- Counterexample to claim C1 as stated: with the empty dictionary the
letter a and the cent sign tie at the one compared position and the two
strings have the same number of characters, yet compare_chars returns lt
(their UTF-8 byte lengths are 1 and 2), not eq as the claim predicts. -/
theorem compareChars_charcount_counterexample :
    comparePos dict0 'a' '¢' = Ordering.eq ∧
    (['a'] : List Char).length = (['¢'] : List Char).length ∧
    compareChars dict0 ['a'] ['¢'] = Ordering.lt := by decide

/-- Claim C2: at each position, a code of strictly smaller length sorts
first regardless of lexicographic content (both directions); only equal
code lengths fall through to the lexicographic comparison; and the loop
short-circuits, returning the first non-equal position's result and
continuing exactly on equality. -/
theorem comparePos_length_first :
    (∀ (dict : Char → Option (List Char)) (c1 c2 : Char),
      utf8Len (lookupCode dict c1) < utf8Len (lookupCode dict c2) →
      comparePos dict c1 c2 = Ordering.lt) ∧
    (∀ (dict : Char → Option (List Char)) (c1 c2 : Char),
      utf8Len (lookupCode dict c2) < utf8Len (lookupCode dict c1) →
      comparePos dict c1 c2 = Ordering.gt) ∧
    (∀ (dict : Char → Option (List Char)) (c1 c2 : Char),
      utf8Len (lookupCode dict c1) = utf8Len (lookupCode dict c2) →
      comparePos dict c1 c2 = lexCmp (lookupCode dict c1) (lookupCode dict c2)) ∧
    (∀ (dict : Char → Option (List Char)) (fa fb : List Char) (c1 c2 : Char)
      (as bs : List Char), comparePos dict c1 c2 ≠ Ordering.eq →
      compareCharsLoop dict fa fb (c1 :: as) (c2 :: bs) = comparePos dict c1 c2) ∧
    (∀ (dict : Char → Option (List Char)) (fa fb : List Char) (c1 c2 : Char)
      (as bs : List Char), comparePos dict c1 c2 = Ordering.eq →
      compareCharsLoop dict fa fb (c1 :: as) (c2 :: bs) = compareCharsLoop dict fa fb as bs) := by
  refine ⟨?_, ?_, ?_, ?_, ?_⟩
  · intro dict c1 c2 h
    unfold comparePos codeCmp
    rw [Nat.compare_eq_lt.mpr h]
  · intro dict c1 c2 h
    unfold comparePos codeCmp
    rw [Nat.compare_eq_gt.mpr h]
  · intro dict c1 c2 h
    unfold comparePos codeCmp
    rw [Nat.compare_eq_eq.mpr h]
  · intro dict fa fb c1 c2 as bs h
    simp only [compareCharsLoop]
  · intro dict fa fb c1 c2 as bs h
    simp only [compareCharsLoop, h]

/-- Witness for claim C2: code "5" against code "12" sorts first by its
smaller length even though "1" is lexicographically before "5", and the
loop short-circuits at that first position. -/
theorem comparePos_length_first_witness :
    comparePos dict51 'a' 'b' = Ordering.lt ∧
    compareCharsLoop dict51 ['a'] ['b'] ['a'] ['b'] = Ordering.lt := by
  constructor
  · exact comparePos_length_first.1 dict51 'a' 'b' (by decide)
  · rw [comparePos_length_first.2.2.2.1 dict51 ['a'] ['b'] 'a' 'b' [] [] (by decide)]
    exact comparePos_length_first.1 dict51 'a' 'b' (by decide)

/-- Claim C4: a name of two or more characters whose two-character head is
in the compound set splits into that head and the rest; otherwise the
split is the first character and the rest; a one-character name splits
into itself and the empty given name whatever the set holds. -/
theorem splitName_cases :
    (∀ (s : List (List Char)) (c1 c2 : Char) (rest : List Char), [c1, c2] ∈ s →
      splitName s (c1 :: c2 :: rest) = some ([c1, c2], rest)) ∧
    (∀ (s : List (List Char)) (c1 c2 : Char) (rest : List Char), [c1, c2] ∉ s →
      splitName s (c1 :: c2 :: rest) = some ([c1], c2 :: rest)) ∧
    (∀ (s : List (List Char)) (c : Char), splitName s [c] = some ([c], [])) := by
  refine ⟨?_, ?_, ?_⟩
  · intro s c1 c2 rest h
    simp [splitName, h]
  · intro s c1 c2 rest h
    simp [splitName, h]
  · intro s c
    rfl

/-- Witness for claim C4: the spec's segmentation examples, with and
without the compound surname in the set, and for the single-character
name. -/
theorem splitName_cases_witness :
    splitName set8 ['欧', '阳', '锋'] = some (['欧', '阳'], ['锋']) ∧
    splitName [] ['欧', '阳', '锋'] = some (['欧'], ['阳', '锋']) ∧
    splitName set8 ['锋'] = some (['锋'], []) :=
  ⟨splitName_cases.1 set8 '欧' '阳' ['锋'] (by decide),
   splitName_cases.2.1 [] '欧' '阳' ['锋'] (by decide),
   splitName_cases.2.2 set8 '锋'⟩

/-- Claim C3: compare_names equals compare_chars on the surnames the
Segmenter produces, except when that comparison is eq, in which case it
equals compare_chars on the given-name remainders; so names with
identical surnames are ordered entirely by the given-name comparison. -/
theorem compareNames_surname_then_given (s : List (List Char))
    (dict : Char → Option (List Char)) (a b : PName) :
    (compareChars dict (splitNameN s a).1 (splitNameN s b).1 ≠ Ordering.eq →
      compareNamesN s dict a b = compareChars dict (splitNameN s a).1 (splitNameN s b).1) ∧
    (compareChars dict (splitNameN s a).1 (splitNameN s b).1 = Ordering.eq →
      compareNamesN s dict a b = compareChars dict (splitNameN s a).2 (splitNameN s b).2) := by
  constructor
  · intro h
    unfold compareNamesN
    cases hc : compareChars dict (splitNameN s a).1 (splitNameN s b).1 with
    | eq => exact absurd hc h
    | lt => rfl
    | gt => rfl
  · intro h
    unfold compareNamesN
    rw [h]

/-- Witness for claim C3: in the end-to-end example the surname comparison
decides (欧阳 vs 锋 is not a tie), while for the names 锋a and 锋b the
surnames tie and the given names decide. -/
theorem compareNames_surname_then_given_witness :
    compareNamesN set8 dict8 oyf feng = compareChars dict8 ['欧', '阳'] ['锋'] ∧
    compareNamesN set8 dict8 pnameFA pnameFB = compareChars dict8 ['a'] ['b'] :=
  ⟨(compareNames_surname_then_given set8 dict8 oyf feng).1 (by decide),
   (compareNames_surname_then_given set8 dict8 pnameFA pnameFB).2 (by decide)⟩

/-- Claim C6 records a divergence between the spec and the code: a name
with zero characters reaching split_name is not rejected with an
EmptyNameError surfaced to the caller; the code calls
chars.next().unwrap() on None and panics. The model returns none exactly
at that panic, for every compound-surname set. -/
theorem splitName_empty_panics : ∀ s : List (List Char), splitName s [] = none :=
  fun _ => rfl

/-- Claim C7: a character absent from the table is not an error: its code
is silently the default sentinel, in either argument position, and
storing the sentinel explicitly in the table yields exactly the same
comparison. -/
theorem missingCode_default :
    (∀ (dict : Char → Option (List Char)) (c1 c2 : Char), dict c1 = none →
      comparePos dict c1 c2 = codeCmp defaultCode (lookupCode dict c2)) ∧
    (∀ (dict : Char → Option (List Char)) (c1 c2 : Char), dict c2 = none →
      comparePos dict c1 c2 = codeCmp (lookupCode dict c1) defaultCode) ∧
    (∀ (dict : Char → Option (List Char)) (c1 c2 : Char), dict c1 = none →
      comparePos (fun c => if c = c1 then some defaultCode else dict c) c1 c2 =
        comparePos dict c1 c2) := by
  refine ⟨?_, ?_, ?_⟩
  · intro dict c1 c2 h
    unfold comparePos lookupCode
    rw [h, Option.getD_none]
  · intro dict c1 c2 h
    unfold comparePos lookupCode
    rw [h, Option.getD_none]
  · intro dict c1 c2 h
    unfold comparePos lookupCode
    by_cases hc : c2 = c1
    · subst hc
      rw [h]
      simp
    · simp [hc, h]

/-- Witness for claim C7: the character 甲 is absent from the example
table, 锋 is present. -/
theorem missingCode_default_witness :
    comparePos dict8 '甲' '锋' = codeCmp defaultCode (lookupCode dict8 '锋') ∧
    comparePos dict8 '锋' '甲' = codeCmp (lookupCode dict8 '锋') defaultCode ∧
    comparePos (fun c => if c = '甲' then some defaultCode else dict8 c) '甲' '锋' =
      comparePos dict8 '甲' '锋' :=
  ⟨missingCode_default.1 dict8 '甲' '锋' (by decide),
   missingCode_default.2.1 dict8 '锋' '甲' (by decide),
   missingCode_default.2.2 dict8 '甲' '锋' (by decide)⟩

/-- Claim C9: the Segmenter loses nothing: whenever split_name returns a
surname and a given name, their concatenation is the original name. -/
theorem splitName_concat : ∀ (s : List (List Char)) (name sur giv : List Char),
    splitName s name = some (sur, giv) → sur ++ giv = name := by
  intro s name sur giv h
  match name with
  | [] => exact absurd h (by simp [splitName])
  | [c] =>
    simp only [splitName, Option.some.injEq, Prod.mk.injEq] at h
    obtain ⟨h1, h2⟩ := h
    subst h1
    subst h2
    rfl
  | c1 :: c2 :: rest =>
    by_cases hm : [c1, c2] ∈ s
    · simp only [splitName, if_pos hm, Option.some.injEq, Prod.mk.injEq] at h
      obtain ⟨h1, h2⟩ := h
      subst h1
      subst h2
      rfl
    · simp only [splitName, if_neg hm, Option.some.injEq, Prod.mk.injEq] at h
      obtain ⟨h1, h2⟩ := h
      subst h1
      subst h2
      rfl

/-- Witness for claim C9: the compound split of 欧阳锋 concatenates back. -/
theorem splitName_concat_witness : ['欧', '阳'] ++ ['锋'] = ['欧', '阳', '锋'] :=
  splitName_concat set8 ['欧', '阳', '锋'] ['欧', '阳'] ['锋'] (by decide)

/-- Claim C10: the default code sentinel is the five-character string
66666; two absent characters therefore tie, and an absent character
compares against a present one exactly as 66666 compares against the
stored code. -/
theorem defaultCode_value :
    defaultCode = ['6', '6', '6', '6', '6'] ∧
    defaultCode.length = 5 ∧
    (∀ (dict : Char → Option (List Char)) (c1 c2 : Char),
      dict c1 = none → dict c2 = none → comparePos dict c1 c2 = Ordering.eq) ∧
    (∀ (dict : Char → Option (List Char)) (c1 c2 : Char) (k : List Char),
      dict c1 = none → dict c2 = some k → comparePos dict c1 c2 = codeCmp defaultCode k) := by
  refine ⟨rfl, rfl, ?_, ?_⟩
  · intro dict c1 c2 h1 h2
    unfold comparePos lookupCode
    rw [h1, h2, Option.getD_none]
    decide
  · intro dict c1 c2 k h1 h2
    unfold comparePos lookupCode
    rw [h1, h2, Option.getD_none, Option.getD_some]

/-- Witness for claim C10: under the example table both 甲 and 乙 are
absent and tie; 甲 against the stored code "5" of 锋 compares as 66666
against "5". -/
theorem defaultCode_value_witness :
    comparePos dict8 '甲' '乙' = Ordering.eq ∧
    comparePos dict8 '甲' '锋' = codeCmp defaultCode ['5'] :=
  ⟨defaultCode_value.2.2.1 dict8 '甲' '乙' (by decide) (by decide),
   defaultCode_value.2.2.2 dict8 '甲' '锋' ['5'] (by decide) (by decide)⟩

/-- Claim C8: under the example table and compound set, the pipeline
splits 欧阳锋 into surname 欧阳 and given 锋, splits 锋 into itself and
an empty given name; at the first surname position the code "5" of 锋 is
shorter than the code "10" of 欧, so the surname of 锋 sorts first, and
the driver's output on the names 欧阳锋, 锋 is 锋 then 欧阳锋. -/
theorem endToEnd_example :
    splitName set8 ['欧', '阳', '锋'] = some (['欧', '阳'], ['锋']) ∧
    splitName set8 ['锋'] = some (['锋'], []) ∧
    comparePos dict8 '锋' '欧' = Ordering.lt ∧
    compareChars dict8 ['锋'] ['欧', '阳'] = Ordering.lt ∧
    compareNamesN set8 dict8 feng oyf = Ordering.lt ∧
    sortNames set8 dict8 [oyf, feng] = [feng, oyf] := by
  refine ⟨by decide, by decide, by decide, by decide, by decide, ?_⟩
  unfold sortNames
  rw [show ([oyf, feng] : List PName).reverse = [feng, oyf] from rfl]
  exact List.mergeSort_of_sorted (by decide)

/-- Claim C5: the driver reverses the loaded list and then stably sorts it
with compare_names as the ordering; consequently, whenever two names that
the comparator ranks as fully equal stand in some relative order in the
reversed input, they keep that relative order in the output, so of two
equal-ranked names the one later in the original input comes out earlier,
and duplicates never swap. The ordering handed to Rust sort_by must be a
total order for its stability guarantee to mean anything; totality of the
induced before-or-equal relation is proved unconditionally (nameLe_total),
while its transitivity is a hypothesis here because a pathological code
table can make compare_names non-transitive (the byte-length fallback can
disagree with a later per-position comparison). -/
theorem sortNames_stable (s : List (List Char)) (dict : Char → Option (List Char))
    (l : List PName) (a b : PName)
    (htrans : ∀ x y z : PName,
      nameLe s dict x y → nameLe s dict y z → nameLe s dict x z)
    (heq : compareNamesN s dict a b = Ordering.eq)
    (hsub : [a, b].Sublist l.reverse) :
    [a, b].Sublist (sortNames s dict l) := by
  unfold sortNames
  refine List.pair_sublist_mergeSort htrans (nameLe_total s dict) ?_ hsub
  show nameLe s dict a b = true
  unfold nameLe
  rw [heq]
  rfl

/-- Witness for claim C5: with the empty table and empty compound set
(where the comparator is transitive), two copies of the name a compare
equal and keep their relative order through the driver. -/
theorem sortNames_stable_witness :
    [pnameA, pnameA].Sublist (sortNames [] dict0 [pnameA, pnameA]) :=
  sortNames_stable [] dict0 [pnameA, pnameA] pnameA pnameA
    nameLe_dict0_trans (by decide)
    (by rw [show ([pnameA, pnameA] : List PName).reverse = [pnameA, pnameA] from rfl])
